import Mathlib

/-!
Verification of the Notedown note-taking plugin core (src/notedown.py).

Text is modelled as `List Char` (Python `str`), filesystem and editor state
as explicit values, and each Python helper is translated into a Lean
function of the same shape.  Host (Sublime Text) services — dialogs,
scope queries, directory mtimes — appear as explicit parameters.
-/

namespace Notedown

/-- Text of a Python `str`, modelled as its list of characters. -/
abbrev Str := List Char

/-- Convenience conversion from a Lean string literal to `Str`. -/
def str (s : String) : Str := s.data

/-- Python `str.lstrip()`: drop leading whitespace. -/
def lstrip : Str → Str
  | [] => []
  | c :: cs => if c.isWhitespace then lstrip cs else c :: cs

/-- Python `str.rstrip()`: drop trailing whitespace. -/
def rstrip (s : Str) : Str := (lstrip s.reverse).reverse

/-- Python `str.strip()`: drop surrounding whitespace. -/
def strip (s : Str) : Str := rstrip (lstrip s)

/-- Python `str.lower()` (ASCII scope). -/
def lowerStr (s : Str) : Str := s.map Char.toLower

/-- Python `name.split(sep)` for a one-character separator: the list of
fragments between occurrences of `sep`; it always yields at least one
fragment, and empty fragments are kept (`"a~~b"` gives `a`, ``, `b`). -/
def splitSep (sep : Char) : Str → List Str
  | [] => [[]]
  | c :: cs =>
    match splitSep sep cs with
    | [] => [[]]
    | p :: ps => if c = sep then [] :: p :: ps else (c :: p) :: ps

/-- Python `sep.join(pieces)` for a one-character separator. -/
def joinSep (sep : Char) : List Str → Str
  | [] => []
  | [p] => p
  | p :: ps => p ++ sep :: joinSep sep ps

/-- The reserved title separator `_TITLE_SEP = '~'` (notedown.py line 59). -/
def titleSep : Char := '~'

/-- Source `_titles(name)` (notedown.py line 398): split the base name on
the separator and strip each piece.  (The Python generator is modelled by
the list of the values it yields.) -/
def titles (name : Str) : List Str := (splitSep titleSep name).map strip

/-- Source `next(_titles(name))`: the first title of a base name
(notedown.py lines 279 and 358).  `titles` never yields an empty list,
so the Python `next` call never raises; `headD` supplies the same value. -/
def primaryTitle (name : Str) : Str := (titles name).headD []

/-- Helper for `splitext`: split a string at its last dot, the dot going
with the second component; `none` when there is no dot. -/
def splitLastDot : Str → Option (Str × Str)
  | [] => none
  | c :: cs =>
    match splitLastDot cs with
    | some (b, e) => some (c :: b, e)
    | none => if c = '.' then some ([], '.' :: cs) else none

/-- Python `os.path.splitext(name)` for a path-free name: split off the
extension at the last dot, except that a name whose part before that dot
consists only of dots (such as `.md` or `..md`) has no extension. -/
def splitext (name : Str) : Str × Str :=
  match splitLastDot name with
  | none => (name, [])
  | some (b, e) => if b.all (· = '.') then (name, []) else (b, e)

/-- `_MARKDOWN_EXTENSIONS` (notedown.py line 53). -/
def markdownExtensions : List Str :=
  [str ".md", str ".mdown", str ".markdown", str ".markdn"]

/-- Title parsing of a full filename, as performed by `_find_notes`
(notedown.py lines 330-333): split off the extension, return `_titles` of
the base when the extension is recognized, and nothing otherwise. -/
def parseNoteTitles (filename : Str) : List Str :=
  let be := splitext filename
  if be.2 ∈ markdownExtensions then titles be.1 else []

/-- Title parsing as worded by the spec (section 4.1), for comparison with
`parseNoteTitles`: identical except that empty pieces are discarded. -/
def specTitleParse (filename : Str) : List Str :=
  let be := splitext filename
  if be.2 ∈ markdownExtensions then
    ((splitSep titleSep be.1).map strip).filter (fun t => ¬ t.isEmpty)
  else []

/-- One flattened entry run of `_find_notes` (notedown.py lines 329-338):
for each directory entry whose extension is recognized, one
`(title, filename)` pair per title, in scan order.  The Python notes dict
is this sequence grouped by lowercased title; `lookupNotes` recovers the
per-key lists. -/
def noteEntries (listing : List Str) : List (Str × Str) :=
  listing.flatMap fun name =>
    if (splitext name).2 ∈ markdownExtensions then
      (titles (splitext name).1).map (fun t => (t, name))
    else []

/-- The list a lowercased key maps to in the `_find_notes` dict: the
entries carrying that key, in scan order (notedown.py lines 333-338). -/
def lookupNotes (entries : List (Str × Str)) (key : Str) : List (Str × Str) :=
  entries.filter (fun e => lowerStr e.1 = key)

/-- A directory as the filesystem presents it to `_find_notes`: its
current modification time and its entry names (`os.stat`, `os.listdir`). -/
structure DirState where
  mtime : Nat
  listing : List Str
  deriving DecidableEq

/-- Source `_find_notes(directory)` (notedown.py lines 318-341) together
with its use of the module-level `_notes_cache`: the cache entry for this
directory is passed in and the (value returned, cache entry afterwards)
pair is returned.  On an mtime hit the stored index is returned and the
entry is unchanged; otherwise the directory is rescanned and the entry is
replaced by the new mtime and index. -/
def findNotes (d : DirState) (cache : Option (Nat × List (Str × Str))) :
    List (Str × Str) × (Nat × List (Str × Str)) :=
  match cache with
  | some (m, notes) =>
    if m = d.mtime then (notes, (m, notes))
    else
      let notes := noteEntries d.listing
      (notes, (d.mtime, notes))
  | none =>
    let notes := noteEntries d.listing
    (notes, (d.mtime, notes))

/-- The completion candidate titles computed by `on_query_completions`
(notedown.py lines 213-216): every title of every entry whose filename is
not the current file, as a deduplicated sorted list (the Python set
comprehension followed by `sorted`).  `os.path.samefile` is modelled as
filename equality inside the single notes directory. -/
def completionTitles (listing : List Str) (excludeName : Str) : List Str :=
  (((noteEntries listing).filterMap fun e =>
      if e.2 = excludeName then none else some e.1).dedup).insertionSort (· ≤ ·)

/-- Test for the two-character link opener: `some rest` when the text
starts with `[[`, with `rest` the text after it. -/
def linkStart (s : Str) : Option Str :=
  if s.take 2 = ['[', '['] then some (s.drop 2) else none

/-- Length matched by the regex fragment `.+?` of `\[\[.+?\]\]`
(notedown.py line 384) against the text after `[[`: the shortest nonempty
run of non-newline characters after which `]]` follows, `none` when no
such run exists.  (`.` in a Python regex does not match a newline.) -/
def contentLen : Str → Option Nat
  | [] => none
  | c :: cs =>
    if c = '\n' then none
    else if cs.take 2 = [']', ']'] then some 1
    else (contentLen cs).map (· + 1)

/-- The scan underlying `view.find_all(r'\[\[.+?\]\]')` (notedown.py line
384): leftmost, non-overlapping matches; after a match the scan resumes
at its end, after a failed start it advances one character.  `i` is the
absolute offset of the current suffix; the fuel argument bounds the
recursion and never runs out when it starts at the text length. -/
def scanLinksAux : Nat → Str → Nat → List (Nat × Nat)
  | 0, _, _ => []
  | _ + 1, [], _ => []
  | fuel + 1, c :: cs, i =>
    match linkStart (c :: cs) with
    | some rest =>
      match contentLen rest with
      | some k => (i, i + (k + 4)) :: scanLinksAux fuel (rest.drop (k + 2)) (i + (k + 4))
      | none => scanLinksAux fuel cs (i + 1)
    | none => scanLinksAux fuel cs (i + 1)

/-- All matches of `\[\[.+?\]\]` in `s`, as (begin, end) offset pairs. -/
def scanLinks (s : Str) : List (Nat × Nat) := scanLinksAux s.length s 0

/-- Whether the regex `\[\[.+?\]\]` matches at the start of `s`: the text
opens with `[[` and a shortest content run followed by `]]` exists. -/
def linkMatchAt (s : Str) : Bool :=
  match linkStart s with
  | some rest => (contentLen rest).isSome
  | none => false

/-- Source `_find_link_regions` on a rescan (notedown.py lines 384-385):
every regex match whose begin offset the host does not report as lying in
a `markup.raw` scope.  The host scope query `view.match_selector(_,
'markup.raw')` is the `raw` parameter. -/
def findLinkRegions (raw : Nat → Bool) (text : Str) : List (Nat × Nat) :=
  (scanLinks text).filter (fun p => !raw p.1)

/-- Whether the closing delimiter `]]` occurs anywhere in the text
(spec-side notion: a link content is described as not containing it). -/
def hasCloser : Str → Bool
  | [] => false
  | c :: cs => ((c :: cs).take 2 = [']', ']']) || hasCloser cs

/-- Offset of the leftmost occurrence of `]]` in the text, if any
(spec-side notion used to state shortest-match precisely). -/
def firstCloser : Str → Option Nat
  | [] => none
  | c :: cs =>
    if (c :: cs).take 2 = [']', ']'] then some 0
    else (firstCloser cs).map (· + 1)

/-- ASCII case-insensitive character equality, the effect of
`re.IGNORECASE` (notedown.py line 278) on a character comparison. -/
def ciEq (a b : Char) : Bool :=
  a = b || (a.isUpper && b.isLower && a.toNat + 32 = b.toNat)
    || (a.isLower && b.isUpper && b.toNat + 32 = a.toNat)

/-- The characters that are special in a Python regex outside a character
class.  The titles are interpolated into the pattern source unescaped
(notedown.py line 277), so a title containing one of these does not match
itself literally. -/
def isRegexMeta (c : Char) : Bool :=
  c ∈ ['.', '^', '$', '*', '+', '?', '\x7b', '\x7d', '[', ']', '\\', '|', '(', ')']

/-- One character position of the compiled pattern
`\[\[(T1|...|Tn)\]\]` (notedown.py line 277).  The titles are interpolated
into the regex source unescaped, so a `.` inside a title becomes the
regex wildcard; every other character of a title is modelled as a
literal.  The model is faithful exactly for titles whose characters are
either literals or `.`: titles containing another regex metacharacter
(see `isRegexMeta`) compile to a different pattern in the source, and
every general theorem about this model carries a no-metacharacter
hypothesis confining it to the faithful domain — only the concrete
dot-wildcard counterexample uses the `.` case. -/
inductive PatChar where
  | dot
  | lit (c : Char)
  deriving DecidableEq

/-- Compile one interpolated title to its sequence of pattern characters. -/
def compileTitle (t : Str) : List PatChar :=
  t.map fun c => if c = '.' then PatChar.dot else PatChar.lit c

/-- Whether a pattern character matches a text character: the regex `.`
matches anything but a newline, a literal matches case-insensitively. -/
def patCharMatches : PatChar → Char → Bool
  | PatChar.dot, c => !(c = '\n')
  | PatChar.lit a, c => ciEq a c

/-- Match a sequence of pattern characters against the front of the text,
returning the remaining text on success. -/
def matchChars : List PatChar → Str → Option Str
  | [], s => some s
  | _ :: _, [] => none
  | p :: ps, c :: cs => if patCharMatches p c then matchChars ps cs else none

/-- Match the closing `\]\]` of the pattern. -/
def afterClose (s : Str) : Option Str :=
  if s.take 2 = [']', ']'] then some (s.drop 2) else none

/-- Try the alternation `(T1|...|Tn)` followed by `\]\]` at the front of
`rest` (the text after `[[`): alternatives are tried left to right, and
an alternative that matches but is not followed by `]]` is backtracked
past, exactly as the Python regex engine does. -/
def tryAlts (alts : List (List PatChar)) (rest : Str) : Option Str :=
  match alts with
  | [] => none
  | a :: as =>
    match matchChars a rest with
    | some m =>
      match afterClose m with
      | some r => some r
      | none => tryAlts as rest
    | none => tryAlts as rest

/-- Try the whole pattern `\[\[(T1|...|Tn)\]\]` at the front of `s`,
returning the text after the match on success. -/
def tryPattern (alts : List (List PatChar)) (s : Str) : Option Str :=
  match linkStart s with
  | some rest => tryAlts alts rest
  | none => none

/-- The scan of `pattern.subn(repl, text)` (notedown.py line 289): at each
position try the pattern; on a match emit the replacement and resume after
the match, otherwise copy one character.  Returns the new text and the
number of substitutions.  Fuel bounds the recursion (a match consumes at
least four characters, so fuel = text length always suffices). -/
def subnPatAux (alts : List (List PatChar)) (repl : Str) : Nat → Str → Str × Nat
  | 0, s => (s, 0)
  | _ + 1, [] => ([], 0)
  | fuel + 1, c :: cs =>
    match tryPattern alts (c :: cs) with
    | some r =>
      let tn := subnPatAux alts repl fuel r
      (repl ++ tn.1, tn.2 + 1)
    | none =>
      let tn := subnPatAux alts repl fuel cs
      (c :: tn.1, tn.2)

/-- `pattern.subn(repl, text)` for the pattern of notedown.py line 277,
with the replacement string taken literally. -/
def subnPat (alts : List (List PatChar)) (repl : Str) (text : Str) : Str × Nat :=
  subnPatAux alts repl text.length text

/-- Case-insensitive test that `p` is an initial run of `s` (spec-side
notion used to state what the rewrite ought to match). -/
def startsWithCI : Str → Str → Bool
  | [], _ => true
  | _ :: _, [] => false
  | a :: as, b :: bs => ciEq a b && startsWithCI as bs

/-- The literal link text `[[t]]` for a title `t`. -/
def linkOf (t : Str) : Str := '[' :: '[' :: (t ++ [']', ']'])

/-- Spec-side matcher: try each removed title `T` in order as the literal
whole link `[[T]]`, case-insensitively (spec section 4.5: matching is
whole-title, case-insensitive, bounded by the link delimiters). -/
def tryLit (removed : List Str) (s : Str) : Option Str :=
  match removed with
  | [] => none
  | t :: ts =>
    if startsWithCI (linkOf t) s then some (s.drop (linkOf t).length)
    else tryLit ts s

/-- Spec-side substitution scan: replace each leftmost non-overlapping
literal whole-link occurrence `[[T]]` of a removed title, counting the
replacements.  Same scan discipline as `subnPatAux`. -/
def subnLitAux (removed : List Str) (repl : Str) : Nat → Str → Str × Nat
  | 0, s => (s, 0)
  | _ + 1, [] => ([], 0)
  | fuel + 1, c :: cs =>
    match tryLit removed (c :: cs) with
    | some r =>
      let tn := subnLitAux removed repl fuel r
      (repl ++ tn.1, tn.2 + 1)
    | none =>
      let tn := subnLitAux removed repl fuel cs
      (c :: tn.1, tn.2)

/-- The substitution the spec describes, as a function of the removed
titles, the literal replacement and the text. -/
def subnLit (removed : List Str) (repl : Str) (text : Str) : Str × Nat :=
  subnLitAux removed repl text.length text

/-- The two Python unicode error classes that can arise from text I/O in
`_update_backlinks`: `UnicodeDecodeError` from reading a file whose bytes
do not decode, `UnicodeEncodeError` (the class named in the `except`
clause on notedown.py line 290). -/
inductive UErr where
  | decodeError
  | encodeError
  deriving DecidableEq

/-- A file in the notes directory: its name, its text, and whether its
bytes decode under the configured encoding (the host filesystem fact that
determines whether `open(...).read()` raises `UnicodeDecodeError`). -/
structure NoteFile where
  name : Str
  text : Str
  decodable : Bool
  deriving DecidableEq

/-- `open(filename, encoding=encoding)` followed by `fileobj.read()`
(notedown.py lines 287-289): the text, or `UnicodeDecodeError` when the
bytes do not decode. -/
def readNote (f : NoteFile) : Except UErr Str :=
  if f.decodable then Except.ok f.text else Except.error UErr.decodeError

/-- `removed = set(_titles(old_name)) - set(_titles(new_name))`
(notedown.py line 273), as a deduplicated list.  (The iteration order of
a Python set is unspecified; this model fixes first-occurrence order.) -/
def removedTitles (oldName newName : Str) : List Str :=
  ((titles oldName).filter (fun t => ¬ t ∈ titles newName)).dedup

/-- The per-file loop of `_update_backlinks` (notedown.py lines 286-298)
over the directory files, in list order (Python iterates a set of the
filenames produced by `_find_notes`, which are exactly the files with a
recognized extension).  Returns the directory contents afterwards and the
exception propagating out of the loop, if any: a read that raises
`UnicodeDecodeError` is not caught by the `except UnicodeEncodeError`
clause, so it aborts the loop with that file and all later files
untouched, while a `UnicodeEncodeError` would be caught and the file
skipped.  A file whose substitution count is zero is not rewritten. -/
def processFiles (alts : List (List PatChar)) (repl : Str) :
    List NoteFile → List NoteFile × Option UErr
  | [] => ([], none)
  | f :: fs =>
    if (splitext f.name).2 ∈ markdownExtensions then
      match readNote f with
      | Except.error UErr.encodeError =>
        let re := processFiles alts repl fs
        (f :: re.1, re.2)
      | Except.error e => (f :: fs, some e)
      | Except.ok text =>
        let tn := subnPat alts repl text
        let f' := if tn.2 = 0 then f else NoteFile.mk f.name tn.1 f.decodable
        let re := processFiles alts repl fs
        (f' :: re.1, re.2)
    else
      let re := processFiles alts repl fs
      (f :: re.1, re.2)

/-- Outcome of one `_update_backlinks` call: the directory contents
afterwards, the exception that propagated out (if any), and the Python
return value when the call returned normally. -/
structure BacklinkRun where
  files : List NoteFile
  raised : Option UErr
  retval : Option Nat
  deriving DecidableEq

/-- Source `_update_backlinks(old_name, new_name, ...)` (notedown.py
lines 266-298).  Both `return` statements of the Python function return
`None`, modelled as `retval = none`; when an exception escapes the loop
there is no return value and `retval` is also `none`. -/
def updateBacklinks (oldName newName : Str) (files : List NoteFile) : BacklinkRun :=
  let removed := removedTitles oldName newName
  if removed = [] then BacklinkRun.mk files none none
  else
    let alts := removed.map compileTitle
    let repl := linkOf (primaryTitle newName)
    let re := processFiles alts repl files
    BacklinkRun.mk re.1 re.2 none

/-- The module-level mutable state the rename flow touches: the files of
the notes directory, the `_notes_cache` entry for that directory, and the
`_link_regions_cache` entry for the saved document. -/
structure EditorState where
  files : List NoteFile
  notesCache : Option (Nat × List (Str × Str))
  linkCache : Option (Nat × List (Nat × Nat))
  deriving DecidableEq

/-- `os.rename(old_filename, new_filename)` on success: the directory
with the one file renamed. -/
def renameFile (files : List NoteFile) (oldN newN : Str) : List NoteFile :=
  files.map fun f => if f.name = oldN then NoteFile.mk newN f.text f.decodable else f

/-- Outcome of one `_reflect_title_in_filename` call (notedown.py lines
229-263): the module state afterwards, the Python return value
(meaningful when no exception escaped), whether `sublime.error_message`
was shown, whether `window.open_file` reopened the document, whether
`_update_backlinks` was invoked, and the exception escaping the call. -/
structure RenameResult where
  state : EditorState
  renamed : Bool
  errorReported : Bool
  reopened : Bool
  backlinksRan : Bool
  raised : Option UErr
  deriving DecidableEq

/-- Source `_reflect_title_in_filename` (notedown.py lines 229-263) for a
document that is the only view on its buffer.  Host interactions appear
as parameters: `noteTitle` is `_note_title(view)`, `confirm` the outcome
of the rename dialog, `renameOk` whether `os.rename` succeeds, and
`postMtime` the directory mtime after a successful rename (changed by the
rename, so the `_find_notes` call inside `_update_backlinks` rescans).
`view.close()` fires `on_pre_close` (notedown.py lines 191-196), which
deletes the link-regions cache entry of the buffer before the rename is
attempted. -/
def reflectTitleInFilename (st : EditorState) (noteTitle : Option Str)
    (oldFilename : Str) (confirm renameOk : Bool) (postMtime : Nat) : RenameResult :=
  match noteTitle with
  | none => RenameResult.mk st false false false false none
  | some newName =>
    let oe := splitext oldFilename
    if newName = oe.1 then RenameResult.mk st false false false false none
    else if !confirm then RenameResult.mk st false false false false none
    else
      let st1 := EditorState.mk st.files st.notesCache none
      if !renameOk then
        RenameResult.mk st1 false true false false none
      else
        let newFilename := newName ++ oe.2
        let files1 := renameFile st1.files oldFilename newFilename
        let cache1 := (findNotes (DirState.mk postMtime (files1.map (fun f => f.name))) st1.notesCache).2
        let run := updateBacklinks oe.1 newName files1
        RenameResult.mk (EditorState.mk run.files (some cache1) none)
          run.raised.isNone false true true run.raised

/-! ## Split / join algebra of the title grammar -/

theorem splitSep_ne_nil (sep : Char) (s : Str) : splitSep sep s ≠ [] := by
  cases s with
  | nil => simp [splitSep]
  | cons c cs =>
    simp only [splitSep]
    cases h : splitSep sep cs with
    | nil => simp
    | cons p ps => by_cases hc : c = sep <;> simp [hc]

theorem joinSep_cons_cons (sep : Char) (c : Char) (p : Str) (ps : List Str) :
    joinSep sep ((c :: p) :: ps) = c :: joinSep sep (p :: ps) := by
  cases ps <;> simp [joinSep]

theorem joinSep_splitSep (sep : Char) (s : Str) :
    joinSep sep (splitSep sep s) = s := by
  induction s with
  | nil => simp [splitSep, joinSep]
  | cons c cs ih =>
    simp only [splitSep]
    cases h : splitSep sep cs with
    | nil => exact absurd h (splitSep_ne_nil sep cs)
    | cons p ps =>
      rw [h] at ih
      by_cases hc : c = sep
      · simp only [hc, if_pos rfl]
        show sep :: joinSep sep (p :: ps) = sep :: cs
        rw [ih]
      · simp only [if_neg hc]
        rw [joinSep_cons_cons, ih]

theorem splitSep_mem_no_sep (sep : Char) (s : Str) :
    ∀ p ∈ splitSep sep s, sep ∉ p := by
  induction s with
  | nil => intro p hp; simp [splitSep] at hp; simp [hp]
  | cons c cs ih =>
    intro p hp
    simp only [splitSep] at hp
    cases h : splitSep sep cs with
    | nil => exact absurd h (splitSep_ne_nil sep cs)
    | cons q qs =>
      simp only [h] at hp ih
      by_cases hc : c = sep
      · rw [if_pos hc] at hp
        rcases List.mem_cons.mp hp with rfl | hp2
        · simp
        · exact ih p hp2
      · rw [if_neg hc] at hp
        rcases List.mem_cons.mp hp with rfl | hp2
        · intro hmem
          rcases List.mem_cons.mp hmem with h1 | h2
          · exact hc h1.symm
          · exact ih q (List.mem_cons_self q qs) h2
        · exact ih p (List.mem_cons_of_mem q hp2)

theorem splitSep_no_sep (sep : Char) (t : Str) (h : sep ∉ t) :
    splitSep sep t = [t] := by
  induction t with
  | nil => simp [splitSep]
  | cons c cs ih =>
    have hc : ¬ c = sep := fun e => h (e ▸ List.mem_cons_self c cs)
    have hcs : sep ∉ cs := fun e => h (List.mem_cons_of_mem c e)
    simp [splitSep, ih hcs, if_neg hc]

theorem splitSep_append_sep (sep : Char) (t r : Str) (h : sep ∉ t) :
    splitSep sep (t ++ sep :: r) = t :: splitSep sep r := by
  induction t with
  | nil =>
    simp only [List.nil_append, splitSep, if_pos rfl]
    cases hr : splitSep sep r with
    | nil => exact absurd hr (splitSep_ne_nil sep r)
    | cons p ps => simp
  | cons c cs ih =>
    have hc : ¬ c = sep := fun e => h (e ▸ List.mem_cons_self c cs)
    have hcs : sep ∉ cs := fun e => h (List.mem_cons_of_mem c e)
    simp only [List.cons_append, splitSep, List.append_eq, ih hcs, if_neg hc]

theorem splitSep_joinSep (sep : Char) (ts : List Str) (hne : ts ≠ [])
    (h : ∀ t ∈ ts, sep ∉ t) : splitSep sep (joinSep sep ts) = ts := by
  induction ts with
  | nil => exact absurd rfl hne
  | cons t ts ih =>
    cases ts with
    | nil =>
      simpa [joinSep] using splitSep_no_sep sep t (h t (List.mem_cons_self t []))
    | cons u us =>
      have hj : joinSep sep (t :: u :: us) = t ++ sep :: joinSep sep (u :: us) := by
        simp [joinSep]
      rw [hj, splitSep_append_sep sep t _ (h t (List.mem_cons_self t _)),
        ih (by simp) (fun x hx => h x (List.mem_cons_of_mem t hx))]

/-! ## Extension splitting -/

theorem splitLastDot_of_no_dot (s : Str) (h : '.' ∉ s) : splitLastDot s = none := by
  induction s with
  | nil => simp [splitLastDot]
  | cons c cs ih =>
    have hc : ¬ c = '.' := fun e => h (e ▸ List.mem_cons_self c cs)
    have hcs : '.' ∉ cs := fun e => h (List.mem_cons_of_mem c e)
    simp [splitLastDot, ih hcs, if_neg hc]

theorem splitLastDot_append_dot (b m : Str) (h : '.' ∉ m) :
    splitLastDot (b ++ '.' :: m) = some (b, '.' :: m) := by
  induction b with
  | nil => simp [splitLastDot, splitLastDot_of_no_dot m h]
  | cons c cs ih => simp [splitLastDot, ih]

theorem markdownExtensions_shape :
    ∀ e ∈ markdownExtensions, ∃ m, e = '.' :: m ∧ '.' ∉ m := by
  intro e he
  simp only [markdownExtensions, List.mem_cons, List.not_mem_nil, or_false] at he
  rcases he with rfl | rfl | rfl | rfl
  · exact ⟨str "md", by decide, by decide⟩
  · exact ⟨str "mdown", by decide, by decide⟩
  · exact ⟨str "markdown", by decide, by decide⟩
  · exact ⟨str "markdn", by decide, by decide⟩

theorem splitext_append_ext (b e : Str) (he : e ∈ markdownExtensions)
    (hb : ¬ b.all (· = '.')) : splitext (b ++ e) = (b, e) := by
  obtain ⟨m, rfl, hm⟩ := markdownExtensions_shape e he
  rw [splitext, splitLastDot_append_dot b m hm]
  simp [hb]

/-! ## Claim C10: title parsing always yields at least one piece -/

/-- Claim C10: for every base-name string (including the empty string),
title parsing yields at least one piece, so extracting the primary (first)
title — as done for the backlink replacement text and the new-note
back-reference — is total and never fails with an exhausted-sequence
error. -/
theorem titles_never_empty (name : Str) : ∃ t ts, titles name = t :: ts := by
  cases h : splitSep titleSep name with
  | nil => exact absurd h (splitSep_ne_nil _ _)
  | cons p ps => exact ⟨strip p, ps.map strip, by simp [titles, h]⟩

/-! ## Claim C4: filename to title set parsing -/

/-- Claim C4, counterexample: the claim says empty pieces are discarded,
but parsing `a~~b.md` keeps the empty middle piece, differing from the
spec-worded parse that discards it. -/
theorem titles_empty_piece_kept :
    parseNoteTitles (str "a~~b.md") = [str "a", [], str "b"] ∧
    specTitleParse (str "a~~b.md") = [str "a", str "b"] ∧
    parseNoteTitles (str "a~~b.md") ≠ specTitleParse (str "a~~b.md") :=
  ⟨by decide, by decide, by decide⟩

/-- Claim C4 as amended: for a recognized extension, parsing strips the
extension and splits the base name on the separator — the pieces are the
unique separator-free decomposition that joins back to the base name —
then trims surrounding whitespace from each piece, keeping empty pieces;
an unrecognized extension yields the empty title set. -/
theorem parseNoteTitles_spec (name : Str) :
    ((splitext name).2 ∈ markdownExtensions →
      joinSep titleSep (splitSep titleSep (splitext name).1) = (splitext name).1 ∧
      (∀ p ∈ splitSep titleSep (splitext name).1, titleSep ∉ p) ∧
      parseNoteTitles name = (splitSep titleSep (splitext name).1).map strip) ∧
    ((splitext name).2 ∉ markdownExtensions → parseNoteTitles name = []) := by
  constructor
  · intro h
    exact ⟨joinSep_splitSep _ _, splitSep_mem_no_sep _ _,
      by simp [parseNoteTitles, titles, h]⟩
  · intro h
    simp [parseNoteTitles, h]

/-! ## Claim C6: the round-trip law -/

/-- Claim C6, counterexample: joining and parsing back does not recover a
title with surrounding whitespace (it is trimmed), nor the singleton
title consisting of a dot (the built filename `..md` has no recognized
extension), although neither title contains the separator. -/
theorem roundTrip_fails_untrimmed :
    parseNoteTitles (joinSep titleSep [str " a"] ++ str ".md") = [str "a"] ∧
    parseNoteTitles (joinSep titleSep [str "."] ++ str ".md") = [] ∧
    parseNoteTitles (joinSep titleSep [str " a"] ++ str ".md") ≠ [str " a"] ∧
    parseNoteTitles (joinSep titleSep [str "."] ++ str ".md") ≠ [str "."] := by
  decide

/-- Claim C6 as amended: the round-trip law holds for every nonempty title
list whose titles contain no separator and equal their own whitespace
trim, provided the joined base name contains some character other than a
dot (otherwise the built filename has no recognized extension). -/
theorem roundTrip_titles (ts : List Str) (ext : Str) (hne : ts ≠ [])
    (h : ∀ t ∈ ts, titleSep ∉ t ∧ strip t = t)
    (hdot : ¬ (joinSep titleSep ts).all (· = '.'))
    (hext : ext ∈ markdownExtensions) :
    parseNoteTitles (joinSep titleSep ts ++ ext) = ts := by
  simp only [parseNoteTitles, splitext_append_ext _ _ hext hdot, hext, if_pos]
  rw [titles, splitSep_joinSep titleSep ts hne (fun t ht => (h t ht).1)]
  conv_rhs => rw [← List.map_id ts]
  exact List.map_congr_left fun t ht => (h t ht).2

/-- Claim C6 witness: the round trip at the concrete title list
`a`, `b c` with extension `.md`. -/
theorem roundTrip_titles_example :
    parseNoteTitles (joinSep titleSep [str "a", str "b c"] ++ str ".md") =
      [str "a", str "b c"] :=
  roundTrip_titles [str "a", str "b c"] (str ".md") (by decide) (by decide)
    (by decide) (by decide)

/-! ## Directory index lemmas -/

theorem titles_ne_nil (name : Str) : titles name ≠ [] := by
  cases h : splitSep titleSep name with
  | nil => exact absurd h (splitSep_ne_nil _ _)
  | cons p ps => simp [titles, h]

theorem primaryTitle_mem (name : Str) : primaryTitle name ∈ titles name := by
  rw [primaryTitle]
  cases h : titles name with
  | nil => exact absurd h (titles_ne_nil name)
  | cons t ts => simp

theorem noteEntries_filename_mem (l : List Str) (e : Str × Str)
    (he : e ∈ noteEntries l) : e.2 ∈ l := by
  simp only [noteEntries, List.mem_flatMap] at he
  obtain ⟨name, hn, he2⟩ := he
  by_cases hmd : (splitext name).2 ∈ markdownExtensions
  · rw [if_pos hmd] at he2
    obtain ⟨t, _, rfl⟩ := List.mem_map.mp he2
    exact hn
  · rw [if_neg hmd] at he2
    simp at he2

/-! ## Claim C5: the mtime-guarded directory index cache -/

/-- Claim C5: with an unchanged directory mtime `findNotes` returns the
stored index and leaves the cache entry unchanged (no rescan); with a
changed mtime it rebuilds from the current listing and stores the new
index; and the index built after a fresh note file is added (equally,
before an existing one is removed) differs from the index without it at
the key of that primary title of that file, so the rebuilt index is not the
old one and reflects the change. -/
theorem findNotes_cache_behavior :
    (∀ (d : DirState) (idx : List (Str × Str)),
      findNotes d (some (d.mtime, idx)) = (idx, (d.mtime, idx))) ∧
    (∀ (d : DirState) (idx : List (Str × Str)) (m : Nat), m ≠ d.mtime →
      findNotes d (some (m, idx)) =
        (noteEntries d.listing, (d.mtime, noteEntries d.listing))) ∧
    (∀ (f : Str) (l : List Str), (splitext f).2 ∈ markdownExtensions → f ∉ l →
      lookupNotes (noteEntries (f :: l)) (lowerStr (primaryTitle (splitext f).1)) ≠
        lookupNotes (noteEntries l) (lowerStr (primaryTitle (splitext f).1))) := by
  refine ⟨?_, ?_, ?_⟩
  · intro d idx
    simp [findNotes]
  · intro d idx m hm
    simp [findNotes, hm]
  · intro f l hmd hfl heq
    have h1 : (primaryTitle (splitext f).1, f) ∈ noteEntries (f :: l) := by
      simp only [noteEntries, List.flatMap_cons, if_pos hmd]
      exact List.mem_append_left _
        (List.mem_map.mpr ⟨_, primaryTitle_mem (splitext f).1, rfl⟩)
    have h2 : (primaryTitle (splitext f).1, f) ∈
        lookupNotes (noteEntries (f :: l)) (lowerStr (primaryTitle (splitext f).1)) :=
      List.mem_filter.mpr ⟨h1, by simp⟩
    rw [heq] at h2
    exact hfl (noteEntries_filename_mem l _ (List.mem_filter.mp h2).1)

/-- Claim C5 witness: the three cache behaviors at a concrete directory
with files `b.md` (cached) and a freshly added `a.md`. -/
theorem findNotes_cache_example :
    findNotes (DirState.mk 2 [str "b.md"]) (some (2, noteEntries [str "b.md"])) =
      (noteEntries [str "b.md"], (2, noteEntries [str "b.md"])) ∧
    findNotes (DirState.mk 3 [str "a.md", str "b.md"]) (some (2, noteEntries [str "b.md"])) =
      (noteEntries [str "a.md", str "b.md"],
        (3, noteEntries [str "a.md", str "b.md"])) ∧
    lookupNotes (noteEntries [str "a.md", str "b.md"])
        (lowerStr (primaryTitle (splitext (str "a.md")).1)) ≠
      lookupNotes (noteEntries [str "b.md"])
        (lowerStr (primaryTitle (splitext (str "a.md")).1)) :=
  ⟨findNotes_cache_behavior.1 (DirState.mk 2 [str "b.md"]) _,
   findNotes_cache_behavior.2.1 (DirState.mk 3 [str "a.md", str "b.md"]) _ 2 (by decide),
   findNotes_cache_behavior.2.2 (str "a.md") [str "b.md"] (by decide) (by decide)⟩

/-! ## Claim C8: completion candidates -/

/-- Claim C8, counterexample: the claim says every title belonging to the
excluded file is excluded, but a title the excluded file shares with
another file is still offered: excluding `x~a.md` still offers `a`,
which belongs to `x~a.md`. -/
theorem completion_keeps_shared_title :
    completionTitles [str "x~a.md", str "y~a.md"] (str "x~a.md") =
      [str "a", str "y"] ∧
    (str "a", str "x~a.md") ∈ noteEntries [str "x~a.md", str "y~a.md"] ∧
    str "a" ∈ completionTitles [str "x~a.md", str "y~a.md"] (str "x~a.md") := by
  decide

/-- Claim C8 as amended: the completion candidate set contains exactly the
titles carried by at least one entry of a file other than the exclude
file — a title belonging solely to the exclude file is excluded, but one
shared with another file is offered — deduplicated and sorted for
deterministic presentation. -/
theorem completionTitles_spec (listing : List Str) (ex : Str) :
    (∀ y, y ∈ completionTitles listing ex ↔
      ∃ z, (y, z) ∈ noteEntries listing ∧ z ≠ ex) ∧
    List.Sorted (· ≤ ·) (completionTitles listing ex) ∧
    (completionTitles listing ex).Nodup := by
  refine ⟨?_, ?_, ?_⟩
  · intro y
    rw [completionTitles, (List.perm_insertionSort _ _).mem_iff, List.mem_dedup,
      List.mem_filterMap]
    constructor
    · rintro ⟨e, he, hfe⟩
      by_cases hz : e.2 = ex
      · rw [if_pos hz] at hfe
        exact absurd hfe (by simp)
      · rw [if_neg hz] at hfe
        obtain rfl := Option.some_inj.mp hfe
        exact ⟨e.2, by simpa using he, hz⟩
    · rintro ⟨z, hz, hne⟩
      exact ⟨(y, z), hz, by simp [if_neg hne]⟩
  · exact List.sorted_insertionSort _ _
  · exact (List.perm_insertionSort _ _).nodup_iff.mpr (List.nodup_dedup _)

/-! ## Claim C1: the rewrite reports no modified-file count -/

/-- Claim C1, counterexample: a backlink rewrite that modifies one file
still produces no count — the Python function returns None on every
path, so the claimed total-modified count (here it would be 1; 0 for the
no-op case) is never returned. -/
theorem updateBacklinks_count_missing :
    (updateBacklinks (str "a") (str "b")
      [NoteFile.mk (str "c.md") (str "[[a]]") true]).retval = none ∧
    (updateBacklinks (str "a") (str "b")
      [NoteFile.mk (str "c.md") (str "[[a]]") true]).files =
      [NoteFile.mk (str "c.md") (str "[[b]]") true] ∧
    (updateBacklinks (str "a") (str "b")
      [NoteFile.mk (str "c.md") (str "[[a]]") true]).files ≠
      [NoteFile.mk (str "c.md") (str "[[a]]") true] := by
  decide

/-- Claim C1 as amended: `_update_backlinks` returns None in every case —
no modified-file count is reported to the caller (per-file substitution
counts only gate the write-back and the debug log). -/
theorem updateBacklinks_retval (oldName newName : Str) (files : List NoteFile) :
    (updateBacklinks oldName newName files).retval = none := by
  rw [updateBacklinks]
  split <;> rfl

/-! ## Claim C2: a file that does not decode aborts the rewrite -/

/-- Claim C2, code-bug evidence: with candidate files `c.md` (decodable,
holds a backlink), `d.md` (not decodable) and `e.md` (decodable, holds a
backlink), the rewrite modifies `c.md`, then aborts at `d.md` with the
UnicodeDecodeError that the `except UnicodeEncodeError` clause does not
catch: `e.md` is never processed, its backlink stays stale, and the
exception escapes instead of the file being skipped. -/
theorem updateBacklinks_decode_abort :
    updateBacklinks (str "a") (str "b")
      [NoteFile.mk (str "c.md") (str "[[a]]") true,
       NoteFile.mk (str "d.md") (str "x") false,
       NoteFile.mk (str "e.md") (str "[[a]]") true] =
    BacklinkRun.mk
      [NoteFile.mk (str "c.md") (str "[[b]]") true,
       NoteFile.mk (str "d.md") (str "x") false,
       NoteFile.mk (str "e.md") (str "[[a]]") true]
      (some UErr.decodeError) none := by
  decide

/-! ## Claim C9: a failed rename aborts the operation -/

/-- Claim C9, counterexample: on a failed rename the error is reported and
nothing is reopened or rewritten, but the caches are not all as they were
before the attempt: the close step that precedes the rename evicted the
link-regions cache entry of the document. -/
theorem renameFailure_cache_evicted :
    (reflectTitleInFilename
      (EditorState.mk [NoteFile.mk (str "a.md") (str "# b") true]
        (some (1, noteEntries [str "a.md"])) (some (7, [(0, 5)])))
      (some (str "b")) (str "a.md") true false 2).state.linkCache = none ∧
    (EditorState.mk [NoteFile.mk (str "a.md") (str "# b") true]
      (some (1, noteEntries [str "a.md"])) (some (7, [(0, 5)]))).linkCache =
      some (7, [(0, 5)]) ∧
    (reflectTitleInFilename
      (EditorState.mk [NoteFile.mk (str "a.md") (str "# b") true]
        (some (1, noteEntries [str "a.md"])) (some (7, [(0, 5)])))
      (some (str "b")) (str "a.md") true false 2).errorReported = true := by
  decide

/-- Claim C9 as amended: when the filesystem rename fails, the error is
reported, the document is not reopened, the backlink rewrite is never
invoked, the files and the directory-index cache are left as they were,
and the function returns False — but the link-regions cache entry of the
document is gone, evicted by the close step that precedes the rename
attempt. -/
theorem renameFailure_aborts (st : EditorState) (newName oldFilename : Str)
    (postMtime : Nat) (hname : newName ≠ (splitext oldFilename).1) :
    reflectTitleInFilename st (some newName) oldFilename true false postMtime =
      RenameResult.mk (EditorState.mk st.files st.notesCache none)
        false true false false none := by
  simp [reflectTitleInFilename, hname]

/-- Claim C9 witness: a failed rename of `a.md` to base name `b` with a
populated link-regions cache. -/
theorem renameFailure_aborts_example :
    reflectTitleInFilename (EditorState.mk [] none (some (7, [(0, 5)])))
        (some (str "b")) (str "a.md") true false 2 =
      RenameResult.mk (EditorState.mk [] none none) false true false false none :=
  renameFailure_aborts (EditorState.mk [] none (some (7, [(0, 5)])))
    (str "b") (str "a.md") 2 (by decide)

/-! ## Pattern matching lemmas for the backlink rewrite -/

theorem ciEq_not_letter (a c : Char) (hu : a.isUpper = false)
    (hl : a.isLower = false) : ciEq a c = decide (a = c) := by
  by_cases h : a = c
  · subst h
    simp [ciEq]
  · simp [ciEq, h, hu, hl]

theorem linkStart_eq_some (s rest : Str) :
    linkStart s = some rest ↔ s = '[' :: '[' :: rest := by
  rw [linkStart]
  constructor
  · intro h
    by_cases ht : s.take 2 = ['[', '[']
    · rw [if_pos ht] at h
      obtain rfl := Option.some_inj.mp h
      conv_lhs => rw [← List.take_append_drop 2 s, ht]
      rfl
    · rw [if_neg ht] at h
      cases h
  · rintro rfl
    simp

theorem matchChars_compile : ∀ (t : Str), '.' ∉ t → ∀ s : Str,
    matchChars (compileTitle t) s =
      if startsWithCI t s then some (s.drop t.length) else none := by
  intro t
  induction t with
  | nil =>
    intro _ s
    simp [compileTitle, matchChars, startsWithCI]
  | cons a as ih =>
    intro h s
    have ha : ¬ a = '.' := fun e => h (e ▸ List.mem_cons_self a as)
    have has : '.' ∉ as := fun e => h (List.mem_cons_of_mem a e)
    cases s with
    | nil => simp [compileTitle, matchChars, startsWithCI]
    | cons c cs =>
      have iha := ih has cs
      rw [compileTitle] at iha
      simp only [compileTitle, List.map_cons, if_neg ha, matchChars,
        patCharMatches, startsWithCI, List.length_cons, List.drop_succ_cons]
      by_cases hci : ciEq a c = true
      · rw [if_pos hci, iha, hci, Bool.true_and]
      · have hcf : ciEq a c = false := Bool.eq_false_iff.mpr hci
        rw [if_neg hci, hcf, Bool.false_and, if_neg (by simp)]

theorem startsWithCI_append : ∀ (x y s : Str),
    startsWithCI (x ++ y) s =
      (startsWithCI x s && startsWithCI y (s.drop x.length)) := by
  intro x
  induction x with
  | nil =>
    intro y s
    simp [startsWithCI]
  | cons a as ih =>
    intro y s
    cases s with
    | nil => simp [startsWithCI]
    | cons c cs =>
      simp only [List.cons_append, List.append_eq, startsWithCI, List.length_cons,
        List.drop_succ_cons, ih y cs, Bool.and_assoc]

theorem startsWithCI_closer (m : Str) :
    startsWithCI [']', ']'] m = decide (m.take 2 = [']', ']']) := by
  have hr : ∀ c, ciEq ']' c = decide (']' = c) :=
    fun c => ciEq_not_letter ']' c (by decide) (by decide)
  cases m with
  | nil => simp [startsWithCI]
  | cons c1 m1 =>
    cases m1 with
    | nil =>
      simp only [startsWithCI, hr]
      simp [startsWithCI]
    | cons c2 m2 =>
      simp only [startsWithCI, hr]
      by_cases h1 : (']' : Char) = c1
      · subst h1
        by_cases h2 : (']' : Char) = c2
        · subst h2
          simp [startsWithCI]
        · have h2' : ¬ c2 = ']' := fun e => h2 e.symm
          simp [startsWithCI, h2, h2']
      · have h1' : ¬ c1 = ']' := fun e => h1 e.symm
        simp [startsWithCI, h1, h1']

theorem startsWithCI_linkOf (t rest : Str) :
    startsWithCI (linkOf t) ('[' :: '[' :: rest) =
      (startsWithCI t rest && decide ((rest.drop t.length).take 2 = [']', ']'])) := by
  have hlb : ciEq '[' '[' = true := by decide
  simp only [linkOf, startsWithCI, hlb, Bool.true_and,
    startsWithCI_append t [']', ']'] rest, startsWithCI_closer]

theorem tryLit_no_link (removed : List Str) (s : Str) (h : linkStart s = none) :
    tryLit removed s = none := by
  have hsw : ∀ t : Str, startsWithCI (linkOf t) s = false := by
    intro t
    have hlb : ∀ c, ciEq '[' c = decide ('[' = c) :=
      fun c => ciEq_not_letter '[' c (by decide) (by decide)
    cases s with
    | nil => simp [linkOf, startsWithCI]
    | cons c1 s1 =>
      cases s1 with
      | nil => simp [linkOf, startsWithCI, hlb]
      | cons c2 s2 =>
        have ht : ¬ (c1 :: c2 :: s2).take 2 = ['[', '['] := by
          intro he
          rw [linkStart, if_pos he] at h
          cases h
        simp only [List.take, List.cons.injEq, and_true] at ht
        simp only [linkOf, startsWithCI, hlb]
        by_cases h1 : '[' = c1
        · by_cases h2 : '[' = c2
          · exact absurd ⟨h1.symm, h2.symm⟩ ht
          · simp [h2]
        · simp [h1]
  induction removed with
  | nil => rfl
  | cons t ts ih =>
    rw [tryLit, if_neg (by simp [hsw t]), ih]

theorem tryPattern_eq_tryLit (removed : List Str)
    (hdot : ∀ t ∈ removed, '.' ∉ t) (s : Str) :
    tryPattern (removed.map compileTitle) s = tryLit removed s := by
  rw [tryPattern]
  cases hls : linkStart s with
  | none => exact (tryLit_no_link removed s hls).symm
  | some rest =>
    obtain rfl := (linkStart_eq_some s rest).mp hls
    induction removed with
    | nil => simp [tryAlts, tryLit]
    | cons t ts ih =>
      have hdt : '.' ∉ t := hdot t (List.mem_cons_self t ts)
      have hdts : ∀ u ∈ ts, '.' ∉ u := fun u hu => hdot u (List.mem_cons_of_mem t hu)
      have hlen : (linkOf t).length = t.length + 4 := by
        simp [linkOf]
      by_cases hsw : startsWithCI t rest = true
      · by_cases hcl : (rest.drop t.length).take 2 = [']', ']']
        · have hcond : startsWithCI (linkOf t) ('[' :: '[' :: rest) = true := by
            simp [startsWithCI_linkOf, hsw, hcl]
          simp only [List.map_cons, tryAlts, matchChars_compile t hdt rest, hsw,
            if_true, tryLit, hcond, afterClose, if_pos hcl, hlen]
          have hdn : ('[' :: '[' :: rest).drop (List.length t + 4) =
              rest.drop (List.length t + 2) := by
            have he : List.length t + 4 = (List.length t + 2) + 1 + 1 := by omega
            rw [he, List.drop_succ_cons, List.drop_succ_cons]
          rw [hdn, List.drop_drop]
        · have hcond : startsWithCI (linkOf t) ('[' :: '[' :: rest) = false := by
            rw [startsWithCI_linkOf, hsw, Bool.true_and]
            simpa using hcl
          simp only [List.map_cons, tryAlts, matchChars_compile t hdt rest, hsw,
            if_true, tryLit, hcond, afterClose, if_neg hcl, Bool.false_eq_true,
            if_false]
          exact ih hdts
      · have hswf : startsWithCI t rest = false := Bool.eq_false_iff.mpr hsw
        have hcond : startsWithCI (linkOf t) ('[' :: '[' :: rest) = false := by
          rw [startsWithCI_linkOf, hswf, Bool.false_and]
        simp only [List.map_cons, tryAlts, matchChars_compile t hdt rest, hswf,
          Bool.false_eq_true, if_false, tryLit, hcond]
        exact ih hdts

theorem subnAux_eq_lit (removed : List Str) (hdot : ∀ t ∈ removed, '.' ∉ t)
    (repl : Str) : ∀ (fuel : Nat) (s : Str),
    subnPatAux (removed.map compileTitle) repl fuel s =
      subnLitAux removed repl fuel s := by
  intro fuel
  induction fuel with
  | zero => intro s; rfl
  | succ n ih =>
    intro s
    cases s with
    | nil => rfl
    | cons c cs =>
      simp only [subnPatAux, subnLitAux, tryPattern_eq_tryLit removed hdot (c :: cs)]
      cases tryLit removed (c :: cs) with
      | some r => simp [ih r]
      | none => simp [ih cs]

/-! ## Claim C3: what the backlink rewrite substitutes -/

/-- Claim C3, counterexample: removed titles are interpolated into the
regex source unescaped, so the removed title `a.b` — the `.` becoming the
regex wildcard — substitutes the link `[[aQb]]`, which is not an
occurrence of `[[a.b]]`; the spec-described literal whole-title
substitution leaves that text unchanged. -/
theorem subnPat_wildcard_dot :
    subnPat ([str "a.b"].map compileTitle) (linkOf (str "x")) (str "[[aQb]]") =
      (str "[[x]]", 1) ∧
    subnLit [str "a.b"] (linkOf (str "x")) (str "[[aQb]]") =
      (str "[[aQb]]", 0) ∧
    subnPat ([str "a.b"].map compileTitle) (linkOf (str "x")) (str "[[aQb]]") ≠
      subnLit [str "a.b"] (linkOf (str "x")) (str "[[aQb]]") := by
  decide

/-- Claim C3 as amended: for removed titles containing no regex
metacharacter — on which titles the compiled-pattern model coincides with
the unescaped interpolation the source performs, every character being a
regex literal — and a primary title with no backslash (so the replacement
string is literal), the substitution equals the spec-described one: it
replaces exactly the leftmost non-overlapping case-insensitive whole-link
occurrences `[[T]]` of removed titles `T` with `[[P]]`, so an occurrence
of `T` as a proper substring of a longer link content is never
substituted. -/
theorem subnPat_eq_subnLit (removed : List Str) (P text : Str)
    (hmeta : ∀ t ∈ removed, ∀ c ∈ t, isRegexMeta c = false) (hP : '\\' ∉ P) :
    subnPat (removed.map compileTitle) (linkOf P) text =
      subnLit removed (linkOf P) text := by
  have hdot : ∀ t ∈ removed, '.' ∉ t := by
    intro t ht hd
    have hm := hmeta t ht '.' hd
    simp [isRegexMeta] at hm
  rw [subnPat, subnLit]
  exact subnAux_eq_lit removed hdot (linkOf P) text.length text

/-- Claim C3 witness: with removed title `a` and primary title `b`, the
rewrite of `x [[A]] [[ab]]` by the compiled pattern agrees with the
literal whole-link substitution (replacing `[[A]]`, not `[[ab]]`). -/
theorem subnPat_eq_subnLit_example :
    subnPat ([str "a"].map compileTitle) (linkOf (str "b")) (str "x [[A]] [[ab]]") =
      subnLit [str "a"] (linkOf (str "b")) (str "x [[A]] [[ab]]") :=
  subnPat_eq_subnLit [str "a"] (str "b") (str "x [[A]] [[ab]]")
    (by decide) (by decide)

/-! ## Link scanner lemmas -/

theorem drop_add_two (x y : Char) (l : Str) (n : Nat) :
    (x :: y :: l).drop (n + 2) = l.drop n := by
  rw [show n + 2 = (n + 1) + 1 from rfl, List.drop_succ_cons, List.drop_succ_cons]

theorem contentLen_facts : ∀ (s : Str) (k : Nat), contentLen s = some k →
    1 ≤ k ∧ k + 2 ≤ s.length ∧ '\n' ∉ s.take k ∧ (s.drop k).take 2 = [']', ']'] ∧
    ∀ j, 1 ≤ j → j < k → (s.drop j).take 2 ≠ [']', ']'] := by
  intro s
  induction s with
  | nil => intro k h; cases h
  | cons c cs ih =>
    intro k h
    rw [contentLen] at h
    by_cases hnl : c = '\n'
    · rw [if_pos hnl] at h
      cases h
    · rw [if_neg hnl] at h
      by_cases hcl : cs.take 2 = [']', ']']
      · rw [if_pos hcl] at h
        obtain rfl := Option.some_inj.mp h
        refine ⟨le_refl 1, ?_, ?_, hcl, ?_⟩
        · have hlt : (cs.take 2).length = 2 := by rw [hcl]; rfl
          rw [List.length_take] at hlt
          simp only [List.length_cons]
          omega
        · exact fun hm => hnl (List.mem_singleton.mp hm).symm
        · intro j hj1 hj2
          omega
      · rw [if_neg hcl] at h
        obtain ⟨k', hk', rfl⟩ := Option.map_eq_some'.mp h
        obtain ⟨h1, h2, h3, h4, h5⟩ := ih k' hk'
        refine ⟨by omega, ?_, ?_, h4, ?_⟩
        · simp only [List.length_cons]
          omega
        · intro hm
          rw [List.take_succ_cons] at hm
          rcases List.mem_cons.mp hm with he | hm2
          · exact hnl he.symm
          · exact h3 hm2
        · intro j hj1 hj2
          cases j with
          | zero => omega
          | succ j' =>
            rw [List.drop_succ_cons]
            by_cases hj0 : j' = 0
            · subst hj0
              simpa using hcl
            · exact h5 j' (by omega) (by omega)

theorem scanLinksAux_sound : ∀ (fuel : Nat) (s : Str) (i a b : Nat),
    (a, b) ∈ scanLinksAux fuel s i →
    i ≤ a ∧ ∃ rest k, s.drop (a - i) = '[' :: '[' :: rest ∧
      contentLen rest = some k ∧ b = a + (k + 4) := by
  intro fuel
  induction fuel with
  | zero => intro s i a b h; cases h
  | succ n ih =>
    intro s i a b h
    cases s with
    | nil => cases h
    | cons c cs =>
      rw [scanLinksAux] at h
      cases hls : linkStart (c :: cs) with
      | some rest =>
        simp only [hls] at h
        cases hcl : contentLen rest with
        | some k =>
          simp only [hcl] at h
          rcases List.mem_cons.mp h with heq | hmem
          · injection heq with ha hb
            subst ha
            subst hb
            refine ⟨le_refl a, rest, k, ?_, hcl, rfl⟩
            simp only [Nat.sub_self, List.drop_zero]
            exact (linkStart_eq_some _ _).mp hls
          · obtain ⟨hia, rest', k', hdrop, hcl', hb⟩ := ih _ _ _ _ hmem
            have hs : c :: cs = '[' :: '[' :: rest := (linkStart_eq_some _ _).mp hls
            refine ⟨by omega, rest', k', ?_, hcl', hb⟩
            rw [hs]
            rw [List.drop_drop] at hdrop
            have harith : a - i = ((k + 2) + (a - (i + (k + 4)))) + 2 := by omega
            rw [harith, drop_add_two]
            exact hdrop
        | none =>
          simp only [hcl] at h
          obtain ⟨hia, rest', k', hdrop, hcl', hb⟩ := ih _ _ _ _ h
          refine ⟨by omega, rest', k', ?_, hcl', hb⟩
          have harith : a - i = (a - (i + 1)) + 1 := by omega
          rw [harith, List.drop_succ_cons]
          exact hdrop
      | none =>
        simp only [hls] at h
        obtain ⟨hia, rest', k', hdrop, hcl', hb⟩ := ih _ _ _ _ h
        refine ⟨by omega, rest', k', ?_, hcl', hb⟩
        have harith : a - i = (a - (i + 1)) + 1 := by omega
        rw [harith, List.drop_succ_cons]
        exact hdrop

theorem scanLinksAux_pairwise : ∀ (fuel : Nat) (s : Str) (i : Nat),
    List.Pairwise (fun p q : Nat × Nat => p.2 ≤ q.1) (scanLinksAux fuel s i) := by
  intro fuel
  induction fuel with
  | zero => intro s i; exact List.Pairwise.nil
  | succ n ih =>
    intro s i
    cases s with
    | nil => exact List.Pairwise.nil
    | cons c cs =>
      rw [scanLinksAux]
      cases hls : linkStart (c :: cs) with
      | some rest =>
        cases hcl : contentLen rest with
        | some k =>
          simp only [hcl]
          refine List.Pairwise.cons ?_ (ih _ _)
          intro q hq
          have hle := (scanLinksAux_sound n (rest.drop (k + 2)) (i + (k + 4))
            q.1 q.2 (by simpa using hq)).1
          simpa using hle
        | none =>
          simp only [hcl]
          exact ih _ _
      | none =>
        exact ih _ _

theorem firstCloser_eq (z : Str) : ∀ (m : Nat),
    (z.drop m).take 2 = [']', ']'] →
    (∀ j, j < m → (z.drop j).take 2 ≠ [']', ']']) →
    firstCloser z = some m := by
  induction z with
  | nil =>
    intro m hm _
    rw [List.drop_nil] at hm
    simp at hm
  | cons c cs ih =>
    intro m hm hmin
    rw [firstCloser]
    by_cases h0 : (c :: cs).take 2 = [']', ']']
    · rw [if_pos h0]
      cases m with
      | zero => rfl
      | succ m' => exact absurd h0 (hmin 0 (by omega))
    · rw [if_neg h0]
      cases m with
      | zero => rw [List.drop_zero] at hm; exact absurd hm h0
      | succ m' =>
        rw [ih m' (by simpa [List.drop_succ_cons] using hm)
          (fun j hj => by simpa [List.drop_succ_cons] using hmin (j + 1) (by omega))]
        rfl

theorem contentLen_isSome_of : ∀ (C z : Str), C ≠ [] → '\n' ∉ C →
    (contentLen (C ++ ']' :: ']' :: z)).isSome = true := by
  intro C
  induction C with
  | nil => intro z h _; exact absurd rfl h
  | cons c C' ih =>
    intro z _ hnl
    have hc : ¬ c = '\n' := fun e => hnl (List.mem_cons.mpr (Or.inl e.symm))
    have hnl' : '\n' ∉ C' := fun hm => hnl (List.mem_cons_of_mem c hm)
    rw [List.cons_append, contentLen, if_neg hc]
    by_cases h2 : (C' ++ ']' :: ']' :: z).take 2 = [']', ']']
    · rw [if_pos h2]
      rfl
    · rw [if_neg h2]
      cases C' with
      | nil => exact absurd (by simp) h2
      | cons d D =>
        have hrec := ih z (by simp) hnl'
        cases hx : contentLen ((d :: D) ++ ']' :: ']' :: z) with
        | some k => rfl
        | none => rw [hx] at hrec; simp at hrec

theorem linkMatchAt_of_linkOf (s C : Str) (hC : C ≠ []) (hnl : '\n' ∉ C)
    (h : s.take (C.length + 4) = linkOf C) : linkMatchAt s = true := by
  have hs : s = linkOf C ++ s.drop (C.length + 4) := by
    conv_lhs => rw [← List.take_append_drop (C.length + 4) s, h]
  rw [hs, linkOf]
  simp only [List.cons_append, List.append_assoc, List.nil_append]
  have hls : linkStart ('[' :: '[' :: (C ++ ']' :: ']' :: s.drop (C.length + 4))) =
      some (C ++ ']' :: ']' :: s.drop (C.length + 4)) :=
    (linkStart_eq_some _ _).mpr rfl
  simp only [linkMatchAt, hls]
  exact contentLen_isSome_of C _ hC hnl

theorem scanLinksAux_complete : ∀ (fuel : Nat) (s : Str) (i p : Nat),
    s.length ≤ fuel → linkMatchAt (s.drop p) = true →
    (∃ q ∈ scanLinksAux fuel s i, q.1 = i + p) ∨
    (∃ q ∈ scanLinksAux fuel s i, q.1 < i + p ∧ i + p < q.2) := by
  intro fuel
  induction fuel with
  | zero =>
    intro s i p hlen hm
    have hs : s = [] := List.length_eq_zero.mp (Nat.le_zero.mp hlen)
    subst hs
    rw [List.drop_nil] at hm
    simp [linkMatchAt, linkStart] at hm
  | succ n ih =>
    intro s i p hlen hm
    cases s with
    | nil =>
      rw [List.drop_nil] at hm
      simp [linkMatchAt, linkStart] at hm
    | cons c cs =>
      have hlen2 : cs.length ≤ n := by
        rw [List.length_cons] at hlen
        omega
      rw [scanLinksAux]
      cases hls : linkStart (c :: cs) with
      | some rest =>
        cases hcl : contentLen rest with
        | some k =>
          simp only [hcl]
          by_cases hp0 : p = 0
          · subst hp0
            left
            exact ⟨(i, i + (k + 4)), List.mem_cons_self _ _, by simp⟩
          · by_cases hpk : p < k + 4
            · right
              exact ⟨(i, i + (k + 4)), List.mem_cons_self _ _, by omega, by omega⟩
            · have hs2 : c :: cs = '[' :: '[' :: rest := (linkStart_eq_some _ _).mp hls
              have hfuel : (rest.drop (k + 2)).length ≤ n := by
                have h1 : (c :: cs).length = rest.length + 2 := by
                  rw [hs2]
                  simp
                have h2 := List.length_drop (k + 2) rest
                rw [List.length_cons] at h1
                omega
              have hmm : linkMatchAt ((rest.drop (k + 2)).drop (p - (k + 4))) = true := by
                rw [List.drop_drop]
                have he : (k + 2) + (p - (k + 4)) = p - 2 := by omega
                rw [he]
                rw [hs2] at hm
                have hp2 : p = (p - 2) + 2 := by omega
                rw [hp2, drop_add_two] at hm
                exact hm
              rcases ih (rest.drop (k + 2)) (i + (k + 4)) (p - (k + 4)) hfuel hmm with
                ⟨q, hq, hq1⟩ | ⟨q, hq, hq1, hq2⟩
              · left
                exact ⟨q, List.mem_cons_of_mem _ hq, by omega⟩
              · right
                exact ⟨q, List.mem_cons_of_mem _ hq, by omega, by omega⟩
        | none =>
          simp only [hcl]
          by_cases hp0 : p = 0
          · subst hp0
            rw [List.drop_zero] at hm
            simp only [linkMatchAt, hls, hcl] at hm
            simp at hm
          · obtain ⟨p', rfl⟩ : ∃ p', p = p' + 1 := ⟨p - 1, by omega⟩
            rw [List.drop_succ_cons] at hm
            rcases ih cs (i + 1) p' hlen2 hm with ⟨q, hq, hq1⟩ | ⟨q, hq, hq1, hq2⟩
            · left
              exact ⟨q, hq, by omega⟩
            · right
              exact ⟨q, hq, by omega, by omega⟩
      | none =>
        by_cases hp0 : p = 0
        · subst hp0
          rw [List.drop_zero] at hm
          simp only [linkMatchAt, hls] at hm
          simp at hm
        · obtain ⟨p', rfl⟩ : ∃ p', p = p' + 1 := ⟨p - 1, by omega⟩
          rw [List.drop_succ_cons] at hm
          rcases ih cs (i + 1) p' hlen2 hm with ⟨q, hq, hq1⟩ | ⟨q, hq, hq1, hq2⟩
          · left
            exact ⟨q, hq, by omega⟩
          · right
            exact ⟨q, hq, by omega, by omega⟩

/-! ## Claim C7: link span extraction -/

/-- Claim C7, counterexample: the claim admits any closing-delimiter-free
character sequence as link contents, but the regex `.` does not match a
newline: the well-formed link `[[a` newline `b]]`, whose contents contain
no `]]`, yields no span at all. -/
theorem linkRegions_newline_excluded :
    findLinkRegions (fun _ => false) (linkOf (str "a" ++ '\n' :: str "b")) = [] ∧
    hasCloser (str "a" ++ '\n' :: str "b") = false ∧
    linkOf (str "a" ++ '\n' :: str "b") =
      '[' :: '[' :: ((str "a" ++ '\n' :: str "b") ++ [']', ']']) := by
  decide

/-- Claim C7 as amended — soundness: every returned span starts outside a
raw region and is a link `[[C]]` whose contents `C` are a nonempty
newline-free sequence that is the shortest such sequence followed by `]]`
(the first closing delimiter at offset at least 1 of `C ++ ]]` is the
final one); non-overlap: spans are disjoint, in order; completeness: the
scan finds ALL matches — wherever a well-formed link `[[C]]` occurs in
the text, either a scanned span starts exactly there (and is returned
whenever its start is not in a raw region), or that position lies
strictly inside an earlier scanned span (consumed by the leftmost
non-overlapping discipline); and `[[A]] [[B]]` yields exactly the two
spans, not one spanning both. -/
theorem findLinkRegions_spec :
    (∀ (raw : Nat → Bool) (text : Str) (a b : Nat),
      (a, b) ∈ findLinkRegions raw text →
      raw a = false ∧
      (text.drop (a + 2)).take (b - (a + 4)) ≠ [] ∧
      '\n' ∉ (text.drop (a + 2)).take (b - (a + 4)) ∧
      b = a + ((text.drop (a + 2)).take (b - (a + 4))).length + 4 ∧
      (text.drop a).take (b - a) = linkOf ((text.drop (a + 2)).take (b - (a + 4))) ∧
      firstCloser (((text.drop (a + 2)).take (b - (a + 4)) ++ [']', ']']).drop 1) =
        some (((text.drop (a + 2)).take (b - (a + 4))).length - 1)) ∧
    (∀ (raw : Nat → Bool) (text : Str),
      List.Pairwise (fun p q : Nat × Nat => p.2 ≤ q.1) (findLinkRegions raw text)) ∧
    (∀ (raw : Nat → Bool) (text : Str) (p : Nat) (C : Str),
      C ≠ [] → '\n' ∉ C → (text.drop p).take (C.length + 4) = linkOf C →
      (∃ q ∈ scanLinks text, q.1 = p ∧
        (raw p = false → q ∈ findLinkRegions raw text)) ∨
      (∃ q ∈ scanLinks text, q.1 < p ∧ p < q.2)) ∧
    findLinkRegions (fun _ => false) (str "[[A]] [[B]]") = [(0, 5), (6, 11)] := by
  refine ⟨?_, ?_, ?_, by decide⟩
  · intro raw text a b hmem
    rw [findLinkRegions] at hmem
    obtain ⟨hsc, hraw⟩ := List.mem_filter.mp hmem
    have hrawa : raw a = false := by simpa using hraw
    obtain ⟨-, rest, k, hdrop, hcl, hb⟩ :=
      scanLinksAux_sound text.length text 0 a b (by simpa [scanLinks] using hsc)
    rw [Nat.sub_zero] at hdrop
    obtain ⟨hk1, hk2, hnl, hcls, hmin⟩ := contentLen_facts rest k hcl
    have hd2 : text.drop (a + 2) = rest := by
      have hin : text.drop (a + 2) = (text.drop a).drop 2 := by
        rw [List.drop_drop]
      rw [hin, hdrop]
      rfl
    have hba : b - (a + 4) = k := by omega
    have hcontent : (text.drop (a + 2)).take (b - (a + 4)) = rest.take k := by
      rw [hd2, hba]
    rw [hcontent]
    have hlenc : (rest.take k).length = k := by
      rw [List.length_take]
      omega
    have hX : rest.take k ++ [']', ']'] = rest.take (k + 2) := by
      rw [List.take_add, hcls]
    refine ⟨hrawa, ?_, hnl, ?_, ?_, ?_⟩
    · intro he
      have hl0 := congrArg List.length he
      rw [hlenc] at hl0
      simp at hl0
      omega
    · rw [hlenc]
      omega
    · rw [hdrop]
      have hba2 : b - a = k + 4 := by omega
      rw [hba2]
      have htk : ('[' :: '[' :: rest).take (k + 4) = '[' :: '[' :: rest.take (k + 2) := by
        have he4 : k + 4 = (k + 2) + 1 + 1 := by omega
        rw [he4, List.take_succ_cons, List.take_succ_cons]
      rw [htk, linkOf, hX]
    · rw [hlenc]
      apply firstCloser_eq
      · rw [List.drop_drop, hX]
        have h1k : 1 + (k - 1) = k := by omega
        rw [h1k]
        have hdk : (rest.take (k + 2)).drop k = (rest.drop k).take 2 := by
          rw [List.drop_take]
          have hm2 : k + 2 - k = 2 := by omega
          rw [hm2]
        rw [hdk, hcls]
        rfl
      · intro j hj
        rw [List.drop_drop, hX, List.drop_take, List.take_take]
        have hmin2 : min 2 (k + 2 - (1 + j)) = 2 := by omega
        rw [hmin2]
        exact hmin (1 + j) (by omega) (by omega)
  · intro raw text
    exact (scanLinksAux_pairwise text.length text 0).filter _
  · intro raw text p C hC hnl hlk
    have hm : linkMatchAt (text.drop p) = true :=
      linkMatchAt_of_linkOf (text.drop p) C hC hnl hlk
    rcases scanLinksAux_complete text.length text 0 p (le_refl _) hm with
      ⟨q, hq, hq1⟩ | ⟨q, hq, hq1, hq2⟩
    · left
      refine ⟨q, by simpa [scanLinks] using hq, by omega, ?_⟩
      intro hraw
      rw [findLinkRegions]
      refine List.mem_filter.mpr ⟨by simpa [scanLinks] using hq, ?_⟩
      have hq1p : q.1 = p := by omega
      simp [hq1p, hraw]
    · right
      exact ⟨q, by simpa [scanLinks] using hq, by omega, by omega⟩

/-! ## Sanity checks: concrete evaluations of the embedded functions -/

theorem sanity_1 : splitSep '~' (str "a~~b") = [str "a", [], str "b"] := by decide
theorem sanity_2 : splitSep '~' (str "") = [[]] := by decide
theorem sanity_3 : splitext (str "a.b.md") = (str "a.b", str ".md") := by decide
theorem sanity_4 : splitext (str ".md") = (str ".md", []) := by decide
theorem sanity_5 : splitext (str "..md") = (str "..md", []) := by decide
theorem sanity_6 : splitext (str "a.") = (str "a", str ".") := by decide
theorem sanity_7 : splitext (str "abc") = (str "abc", []) := by decide
theorem sanity_8 : titles (str " a ~ b") = [str "a", str "b"] := by decide
theorem sanity_9 : parseNoteTitles (str "a~~b.md") = [str "a", [], str "b"] := by decide
theorem sanity_10 : specTitleParse (str "a~~b.md") = [str "a", str "b"] := by decide
theorem sanity_11 : parseNoteTitles (str "a.txt") = [] := by decide
theorem sanity_12 : scanLinks (str "[[A]] [[B]]") = [(0, 5), (6, 11)] := by decide
theorem sanity_13 : scanLinks (str "[[A]]]") = [(0, 5)] := by decide
theorem sanity_14 : scanLinks (str "[[]]") = [] := by decide
theorem sanity_15 : scanLinks (str "[[]]x]]") = [(0, 7)] := by decide
theorem sanity_16 : scanLinks (str "[[a]b]]") = [(0, 7)] := by decide
theorem sanity_17 : findLinkRegions (fun i => i = 6) (str "[[X]] [[X]]") = [(0, 5)] := by decide
theorem sanity_18 : completionTitles [str "x~a.md", str "y~a.md"] (str "x~a.md") =
    [str "a", str "y"] := by decide
theorem sanity_19 : subnPat [compileTitle (str "a")] (linkOf (str "x")) (str "see [[A]] and [[ab]]") =
    (str "see [[x]] and [[ab]]", 1) := by decide
theorem sanity_20 : subnPat [compileTitle (str "a.b")] (linkOf (str "x")) (str "[[aQb]]") =
    (str "[[x]]", 1) := by decide
theorem sanity_21 : subnLit [str "a.b"] (linkOf (str "x")) (str "[[aQb]]") =
    (str "[[aQb]]", 0) := by decide
theorem sanity_22 : updateBacklinks (str "a") (str "b") [NoteFile.mk (str "c.md") (str "[[a]]") true] =
    BacklinkRun.mk [NoteFile.mk (str "c.md") (str "[[b]]") true] none none := by decide
theorem sanity_23 : updateBacklinks (str "a") (str "a~x") [NoteFile.mk (str "c.md") (str "[[a]]") true] =
    BacklinkRun.mk [NoteFile.mk (str "c.md") (str "[[a]]") true] none none := by decide
theorem sanity_24 : updateBacklinks (str "a~b") (str "x") [NoteFile.mk (str "c.md") (str "see [[A]] and [[b]]") true] =
    BacklinkRun.mk [NoteFile.mk (str "c.md") (str "see [[x]] and [[x]]") true] none none := by decide
theorem sanity_25 : updateBacklinks (str "a") (str "b") [NoteFile.mk (str "c.md") (str "[[a]]") false] =
    BacklinkRun.mk [NoteFile.mk (str "c.md") (str "[[a]]") false] (some UErr.decodeError) none := by decide

end Notedown
